import Mathlib

/-!
Shallow embedding of the causal-graph analysis engine of CLAST
(clast-model.js): the graph store (factors / links), the predecessor
closure (`setPredecessors` / `makePredecessorLists`), the path
enumerator (`sproutPathsFrom` / `buildPathMatrix`), the cycle registry
(the dedup loop at the end of `buildPathMatrix`) and the feedback
classifier (`cleanUpFeedbackLinks`), together with the mutating model
operations `deleteLink` and `deleteFactor`.

Modelling conventions:
- A factor is represented by its stable identifier, a natural number.
  JavaScript object identity between Factor objects coincides with
  identifier equality, because the model keeps one object per key of
  `this.factors`.
- A link is represented by the ordered pair (from_factor, to_factor);
  `UI.linkIdentifier` derives the link key from exactly these two
  factors, and `addLink` never creates a second link for the same pair.
- `this.factors` and `this.links` are JavaScript objects with
  non-numeric string keys, so `for (k in ...)` iterates them in key
  insertion order; both are therefore embedded as lists in insertion
  order.  `delete obj[k]` preserves the order of the remaining keys,
  which matches `List.erase`.
- The per-factor `inputs` / `outputs` adjacency arrays are maintained
  by `addLink` (push to both) and `deleteLink` (splice from both), so
  at all times they equal the links filtered by to- resp. from-factor,
  in insertion order; they are embedded as those filters.
- The analysis functions read only `this.factors` and `this.links`, so
  they are embedded as functions of the factor list and the link list.
- The recursive procedures `setPredecessors` and `sproutPathsFrom` are
  embedded with an explicit fuel argument and return `none` when the
  fuel runs out; fuel sufficiency (hence termination of the original
  recursion) is proved below.
-/

namespace Clast

/-- A factor (node) of the causal graph, identified by its stable identifier. -/
abbrev FactorId := Nat

/-- A link (directed edge): the ordered pair (from_factor, to_factor). -/
abbrev LinkId := FactorId × FactorId

/-- The `outputs` adjacency array of factor `f`: the stored links whose
from_factor is `f`, in insertion order. -/
def outputsOf (L : List LinkId) (f : FactorId) : List LinkId :=
  L.filter (fun l => l.1 == f)

/-- The `inputs` adjacency array of factor `f`: the stored links whose
to_factor is `f`, in insertion order. -/
def inputsOf (L : List LinkId) (f : FactorId) : List LinkId :=
  L.filter (fun l => l.2 == f)

/-- Working state of one predecessor-closure pass: the predecessor list of
every factor, and the set of links whose `visited` flag is set. -/
structure PredState where
  preds : FactorId → List FactorId
  visited : List LinkId

/-- Append `src` to the predecessor list of `f` unless already present
(`if(this.predecessors.indexOf(ff) < 0) this.predecessors.push(ff)`). -/
def pushPred (S : PredState) (f src : FactorId) : PredState :=
  if src ∈ S.preds f then S
  else ⟨fun g => if g = f then S.preds f ++ [src] else S.preds g, S.visited⟩

/-- Append every member of the predecessor list of `src` to that of `f`
unless already present (the final `for` loop of `Factor.setPredecessors`). -/
def unionPreds (S : PredState) (f src : FactorId) : PredState :=
  (S.preds src).foldl (fun T p => pushPred T f p) S

mutual

/-- Fueled embedding of `Factor.setPredecessors`: iterate over the `inputs`
of `f` (delegated to `setPredecessorsLoop`); `none` signals fuel exhaustion,
never reached at the fuel used by `makePredecessorListsF`. -/
def setPredecessorsF (L : List LinkId) : Nat → PredState → FactorId → Option PredState
  | 0, _, _ => none
  | fuel + 1, S, f => setPredecessorsLoop L fuel (inputsOf L f) S f
termination_by fuel _ _ => (fuel, 0)

/-- The body of the `for` loop of `Factor.setPredecessors` over the remaining
input links of `f`: read the link's `visited` flag, set it, push the link's
from_factor as a predecessor of `f`, recurse into the from_factor if the flag
was unset, then union the from_factor's predecessors into those of `f`. -/
def setPredecessorsLoop (L : List LinkId) :
    Nat → List LinkId → PredState → FactorId → Option PredState
  | _, [], S, _ => some S
  | fuel, l :: rest, S, f =>
      let v := S.visited.contains l
      let S1 : PredState := ⟨S.preds, l :: S.visited⟩
      let S2 := pushPred S1 f l.1
      match (if v then some S2 else setPredecessorsF L fuel S2 l.1) with
      | none => none
      | some S3 => setPredecessorsLoop L fuel rest (unionPreds S3 f l.1) f
termination_by fuel ls _ _ => (fuel, ls.length + 1)

end

/-- Embedding of `makePredecessorLists`: reset all predecessor lists and all
`visited` flags, then run `setPredecessors` on every factor in store order.
The fuel `L.length + 1` is sufficient (`makePredecessorListsF_isSome`). -/
def makePredecessorListsF (factors : List FactorId) (L : List LinkId) : Option PredState :=
  factors.foldl
    (fun acc f => acc.bind fun S => setPredecessorsF L (L.length + 1) S f)
    (some ⟨fun _ => [], []⟩)

mutual

/-- Fueled embedding of `sproutPathsFrom`: iterate over the `outputs` of the
last factor of `path` (delegated to `sproutLoop`), returning the list of
paths pushed into `path_matrix[path[0]]`, in push (depth-first) order.  The
paths handled are always non-empty, so `getLastD` faithfully renders
`path[path.length - 1]`. -/
def sproutPathsFromF (L : List LinkId) : Nat → List FactorId → Option (List (List FactorId))
  | 0, _ => none
  | fuel + 1, path => sproutLoop L fuel (outputsOf L (path.getLastD 0)) path
termination_by fuel _ => (fuel, 0)

/-- The body of the `for` loop of `sproutPathsFrom` over the remaining output
links: for target `tf`, if `tf` occurs in `path` at index 0 the extended path
is recorded as a cycle without recursion; if `tf` occurs at a later index the
branch is abandoned; if `tf` is absent the extended path is recorded and
recursed into. -/
def sproutLoop (L : List LinkId) :
    Nat → List LinkId → List FactorId → Option (List (List FactorId))
  | _, [], _ => some []
  | fuel, l :: rest, path =>
      let tf := l.2
      if tf ∈ path then
        if path.indexOf tf = 0 then
          (sproutLoop L fuel rest path).map (fun t => (path ++ [tf]) :: t)
        else
          sproutLoop L fuel rest path
      else
        match sproutPathsFromF L fuel (path ++ [tf]) with
        | none => none
        | some sub => (sproutLoop L fuel rest path).map (fun t => (path ++ [tf]) :: (sub ++ t))
termination_by fuel ls _ => (fuel, ls.length + 1)

end

/-- The `for (j ...)` loop of `buildPathMatrix` over the output links of `k`:
each iteration assigns `path_matrix[k] = [[k, to]]` — overwriting whatever the
previous iterations stored there — and, unless the new 2-element path is
already a self-loop cycle, sprouts longer paths from it (which are pushed onto
the same freshly assigned array).  The inner `Option` is the current value of
`path_matrix[k]` (`none` = key absent); the outer `Option` is fuel exhaustion
inside `sproutPathsFrom`. -/
def pathMatrixEntryLoop (L : List LinkId) (fuel : Nat) (k : FactorId) :
    List LinkId → Option (List (List FactorId)) → Option (Option (List (List FactorId)))
  | [], cur => some cur
  | l :: rest, _ =>
      let path : List FactorId := [k, l.2]
      if k = l.2 then pathMatrixEntryLoop L fuel k rest (some [path])
      else
        match sproutPathsFromF L fuel path with
        | none => none
        | some sub => pathMatrixEntryLoop L fuel k rest (some (path :: sub))

/-- The path matrix built by `buildPathMatrix`: an association list keyed by
factor (a key is present iff the factor has at least one output link), in
factor store order. -/
def buildPathMatrixF (factors : List FactorId) (L : List LinkId) (fuel : Nat) :
    Option (List (FactorId × List (List FactorId))) :=
  factors.foldl
    (fun acc k => acc.bind fun pm =>
      match pathMatrixEntryLoop L fuel k (outputsOf L k) none with
      | none => none
      | some none => some pm
      | some (some pl) => some (pm ++ [(k, pl)]))
    (some [])

/-- List intersection.  Modelled from the spec: the helper `intersection`
used by `buildPathMatrix` lives in a utility file that is not part of the
provided sources; the spec's set-equality rule reads "their node sets
intersect completely (every node in one appears in the other)", so the
helper is modelled as the standard filter of the first list by membership in
the second, which makes `intersection(p, c).length === p.length` mean exactly
"every element of `p` appears in `c`". -/
def intersection (a b : List FactorId) : List FactorId :=
  a.filter (fun x => x ∈ b)

/-- The `known` test of the cycle-registry loop: `p` matches some already
accepted cycle `c` when `p.length === c.length` and
`intersection(p, c).length === p.length`. -/
def cycleKnown (cl : List (List FactorId)) (p : List FactorId) : Bool :=
  cl.foldl
    (fun known c => known || (p.length == c.length && (intersection p c).length == p.length))
    false

/-- One step of the cycle registry: append candidate `p` to the accepted list
unless `p` begins and ends with different factors or matches an already
accepted cycle. -/
def cycleStep (cl : List (List FactorId)) (p : List FactorId) : List (List FactorId) :=
  if p.headD 0 = p.getLastD 0 then
    (if cycleKnown cl p then cl else cl ++ [p])
  else cl

/-- The cycle-collection loop at the end of `buildPathMatrix`: scan every
recorded path of every path-matrix entry in order, keeping the closing paths
that match no previously kept cycle.  The paths handled here always have at
least two elements, so `headD`/`getLastD` faithfully render
`p[0] === p[p.length - 1]`. -/
def buildCycleList (pm : List (FactorId × List (List FactorId))) : List (List FactorId) :=
  pm.foldl (fun cl entry => entry.2.foldl cycleStep cl) []

/-- The part of the CLAST model state that the graph-analysis engine reads and
writes: the stored factors and links (insertion order), and the derived data
(`path_matrix`, `cycle_list`, per-factor predecessor lists, per-link
`is_feedback` flags). -/
structure ClastModel where
  factors : List FactorId
  links : List LinkId
  path_matrix : List (FactorId × List (List FactorId))
  cycle_list : List (List FactorId)
  predecessors : List (FactorId × List FactorId)
  feedback : List (LinkId × Bool)
deriving Repr, DecidableEq

/-- Embedding of `cleanUpFeedbackLinks`, the full recompute pass: run
`buildPathMatrix` (which also rebuilds `cycle_list`), run
`makePredecessorLists`, then set every link's `is_feedback` flag to
"the link's to_factor occurs in the predecessor list of its from_factor".
The fallback branch is unreachable: both fueled computations succeed at these
fuels, as proved below. -/
def cleanUpFeedbackLinks (m : ClastModel) : ClastModel :=
  match buildPathMatrixF m.factors m.links (m.links.length + 1),
        makePredecessorListsF m.factors m.links with
  | some pm, some S =>
      { m with
        path_matrix := pm
        cycle_list := buildCycleList pm
        predecessors := m.factors.map (fun f => (f, S.preds f))
        feedback := m.links.map (fun l => (l, (S.preds l.1).contains l.2)) }
  | _, _ => m

/-- Embedding of `deleteLink`: splice the link out of both adjacency arrays
(implicit here, adjacency being derived), delete it from `this.links`, and
then — still inside `deleteLink` — run `cleanUpFeedbackLinks`. -/
def deleteLink (m : ClastModel) (l : LinkId) : ClastModel :=
  cleanUpFeedbackLinks { m with links := m.links.erase l }

/-- The test `l.from_node == node || l.to_node == node` of `deleteFactor`.
The Link class defines `from_factor` / `to_factor` but never `from_node` or
`to_node` (those names exist only on the UI controller), so both property
accesses yield `undefined`, and in JavaScript `undefined == node` is false
for every Factor object `node`; the whole test is therefore constantly
false. -/
def linkTouchesDeletedNode (_l : LinkId) (_n : FactorId) : Bool :=
  false

/-- Embedding of `deleteFactor` from the Model class.  The method first
scans `this.links`, calling `deleteLink` on every link whose
`l.from_node == node || l.to_node == node` test passes — which never happens
(`linkTouchesDeletedNode`).  It then evaluates
`node.parent.deleteFactor(node)`: no class of the provided source defines a
`deleteFactor` method on clusters (Cluster has `deleteNote` but no
`deleteFactor`, and neither NodeBox nor ObjectWithXYWH declares one), so the
property access yields `undefined` and the call raises a TypeError; the
statement `delete this.factors[node.identifier]` on the following line is
never executed.  The embedding therefore returns the raised error, paired
with the store state the aborted call leaves behind. -/
def deleteFactor (m : ClastModel) (n : FactorId) :
    Except (String × ClastModel) ClastModel :=
  let m1 := m.links.foldl
    (fun acc l => if linkTouchesDeletedNode l n then deleteLink acc l else acc) m
  Except.error ("TypeError: node.parent.deleteFactor is not a function", m1)

/-- A fresh model holding the given factors and links, with empty derived
data (the state right after the store mutations, before any recompute). -/
def mkModel (factors : List FactorId) (L : List LinkId) : ClastModel :=
  ⟨factors, L, [], [], [], []⟩

/-- Reachability via one or more stored links: the transitive closure of the
edge relation, used to state the specification-level properties. -/
inductive Reaches (L : List LinkId) : FactorId → FactorId → Prop
  | single {u v : FactorId} : (u, v) ∈ L → Reaches L u v
  | step {u v w : FactorId} : (u, v) ∈ L → Reaches L v w → Reaches L u w

/-- Consecutive elements of the list are joined by stored links. -/
def ChainL (L : List LinkId) (p : List FactorId) : Prop :=
  List.Chain' (fun a b => (a, b) ∈ L) p

theorem Reaches.trans {L : List LinkId} {a b c : FactorId}
    (h1 : Reaches L a b) (h2 : Reaches L b c) : Reaches L a c := by
  induction h1 with
  | single h => exact Reaches.step h h2
  | step h _ ih => exact Reaches.step h (ih h2)

theorem Reaches.extend {L : List LinkId} {a b c : FactorId}
    (h1 : Reaches L a b) (h2 : (b, c) ∈ L) : Reaches L a c :=
  h1.trans (Reaches.single h2)

theorem length_filter_mono {α : Type} {p q : α → Bool}
    (h : ∀ x, q x = true → p x = true) :
    ∀ l : List α, (l.filter q).length ≤ (l.filter p).length := by
  intro l
  induction l with
  | nil => simp
  | cons a t ih =>
      simp only [List.filter]
      cases hqa : q a with
      | true => rw [h a hqa]; simpa using ih
      | false =>
          cases hpa : p a with
          | true => exact le_trans ih (Nat.le_succ _)
          | false => exact ih

theorem length_filter_lt {α : Type} {p q : α → Bool}
    (h : ∀ x, q x = true → p x = true) {a : α} :
    ∀ {l : List α}, a ∈ l → p a = true → q a = false →
      (l.filter q).length < (l.filter p).length := by
  intro l
  induction l with
  | nil => intro ha; exact absurd ha (List.not_mem_nil a)
  | cons b t ih =>
      intro ha hpa hqa
      rcases List.mem_cons.mp ha with hab | hat
      · subst hab
        simp only [List.filter, hpa, hqa]
        exact Nat.lt_succ_of_le (length_filter_mono h t)
      · simp only [List.filter]
        cases hqb : q b with
        | true =>
            rw [h b hqb]
            simpa using Nat.succ_lt_succ (ih hat hpa hqa)
        | false =>
            cases hpb : p b with
            | true => exact Nat.lt_succ_of_lt (ih hat hpa hqa)
            | false => exact ih hat hpa hqa

/-- Number of links whose `visited` flag is still unset. -/
def unvisitedCount (L vis : List LinkId) : Nat :=
  (L.filter (fun l => !vis.contains l)).length

theorem contains_eq_false {α : Type} [BEq α] [LawfulBEq α] {l : List α} {a : α} :
    l.contains a = false ↔ a ∉ l := by
  constructor
  · intro h hm
    have h2 : l.contains a = true := List.elem_iff.mpr hm
    rw [h] at h2
    cases h2
  · intro hm
    cases hc : l.contains a
    · rfl
    · exact absurd (List.elem_iff.mp hc) hm

theorem unvisitedCount_anti {L vis vis' : List LinkId} (h : vis ⊆ vis') :
    unvisitedCount L vis' ≤ unvisitedCount L vis := by
  refine length_filter_mono (fun x hx => ?_) L
  rw [Bool.not_eq_true'] at hx
  rw [Bool.not_eq_true']
  rw [contains_eq_false] at hx ⊢
  exact fun hm => hx (h hm)

theorem unvisitedCount_cons_lt {L vis : List LinkId} {l : LinkId}
    (hl : l ∈ L) (hv : vis.contains l = false) :
    unvisitedCount L (l :: vis) < unvisitedCount L vis := by
  refine length_filter_lt (fun x hx => ?_) hl ?_ ?_
  · rw [Bool.not_eq_true'] at hx
    rw [Bool.not_eq_true']
    rw [contains_eq_false] at hx ⊢
    exact fun hm => hx (List.mem_cons_of_mem _ hm)
  · show (!vis.contains l) = true
    rw [hv]; rfl
  · show (!(l :: vis).contains l) = false
    have hc : (l :: vis).contains l = true := List.elem_iff.mpr (List.mem_cons_self l vis)
    rw [hc]; rfl

theorem unvisitedCount_le_length (L vis : List LinkId) :
    unvisitedCount L vis ≤ L.length :=
  List.length_filter_le _ L

theorem pushPred_visited (S : PredState) (f src : FactorId) :
    (pushPred S f src).visited = S.visited := by
  unfold pushPred; split <;> rfl

theorem foldl_pushPred_visited (f : FactorId) :
    ∀ (ps : List FactorId) (S : PredState),
      ((ps.foldl (fun T p => pushPred T f p) S)).visited = S.visited := by
  intro ps
  induction ps with
  | nil => intro S; rfl
  | cons a t ih => intro S; rw [List.foldl_cons, ih, pushPred_visited]

theorem unionPreds_visited (S : PredState) (f src : FactorId) :
    (unionPreds S f src).visited = S.visited :=
  foldl_pushPred_visited f _ S

theorem pushPred_mem {S : PredState} {f src g x : FactorId}
    (h : x ∈ (pushPred S f src).preds g) :
    x ∈ S.preds g ∨ (g = f ∧ x = src) := by
  unfold pushPred at h
  split at h
  · exact Or.inl h
  · simp only at h
    by_cases hg : g = f
    · rw [if_pos hg] at h
      rcases List.mem_append.mp h with hx | hx
      · exact Or.inl (hg ▸ hx)
      · exact Or.inr ⟨hg, List.mem_singleton.mp hx⟩
    · rw [if_neg hg] at h
      exact Or.inl h

theorem foldl_pushPred_mem {f : FactorId} :
    ∀ {ps : List FactorId} {S : PredState} {g x : FactorId},
      x ∈ ((ps.foldl (fun T p => pushPred T f p) S)).preds g →
      x ∈ S.preds g ∨ (g = f ∧ x ∈ ps) := by
  intro ps
  induction ps with
  | nil => intro S g x h; exact Or.inl h
  | cons a t ih =>
      intro S g x h
      rw [List.foldl_cons] at h
      rcases ih h with h1 | ⟨hg, hx⟩
      · rcases pushPred_mem h1 with h2 | ⟨hg, hx⟩
        · exact Or.inl h2
        · exact Or.inr ⟨hg, by simp [hx]⟩
      · exact Or.inr ⟨hg, List.mem_cons_of_mem a hx⟩

theorem unionPreds_mem {S : PredState} {f src g x : FactorId}
    (h : x ∈ (unionPreds S f src).preds g) :
    x ∈ S.preds g ∨ (g = f ∧ x ∈ S.preds src) :=
  foldl_pushPred_mem h

theorem setPredecessorsLoop_visited_mono {L : List LinkId} {fuel : Nat}
    (hF : ∀ {S : PredState} {f : FactorId} {S' : PredState},
      setPredecessorsF L fuel S f = some S' → S.visited ⊆ S'.visited) :
    ∀ {ls : List LinkId} {S : PredState} {f : FactorId} {S' : PredState},
      setPredecessorsLoop L fuel ls S f = some S' → S.visited ⊆ S'.visited := by
  intro ls
  induction ls with
  | nil =>
      intro S f S' h
      simp only [setPredecessorsLoop, Option.some.injEq] at h
      exact h ▸ List.Subset.refl _
  | cons l rest ih =>
      intro S f S' h
      simp only [setPredecessorsLoop] at h
      cases hv : S.visited.contains l with
      | true =>
          rw [hv] at h
          simp only [if_true] at h
          have h1 := ih h
          rw [unionPreds_visited, pushPred_visited] at h1
          exact fun x hx => h1 (List.mem_cons_of_mem l hx)
      | false =>
          rw [hv] at h
          simp only [Bool.false_eq_true, if_false] at h
          cases hr : setPredecessorsF L fuel (pushPred ⟨S.preds, l :: S.visited⟩ f l.1) l.1 with
          | none => rw [hr] at h; cases h
          | some S3 =>
              rw [hr] at h
              have h1 := hF hr
              rw [pushPred_visited] at h1
              have h2 := ih h
              rw [unionPreds_visited] at h2
              exact fun x hx => h2 (h1 (List.mem_cons_of_mem l hx))

theorem setPredecessorsF_visited_mono {L : List LinkId} :
    ∀ (fuel : Nat) {S : PredState} {f : FactorId} {S' : PredState},
      setPredecessorsF L fuel S f = some S' → S.visited ⊆ S'.visited := by
  intro fuel
  induction fuel with
  | zero => intro S f S' h; simp [setPredecessorsF] at h
  | succ fuel ih =>
      intro S f S' h
      simp only [setPredecessorsF] at h
      exact setPredecessorsLoop_visited_mono (fun h' => ih h') h

theorem setPredecessorsLoop_ex {L : List LinkId} {fuel : Nat}
    (hF : ∀ (S : PredState) (f : FactorId), unvisitedCount L S.visited < fuel →
      ∃ S', setPredecessorsF L fuel S f = some S') :
    ∀ {ls : List LinkId} {S : PredState} {f : FactorId},
      (∀ l ∈ ls, l ∈ L) → unvisitedCount L S.visited ≤ fuel →
      ∃ S', setPredecessorsLoop L fuel ls S f = some S' := by
  intro ls
  induction ls with
  | nil => intro S f _ _; exact ⟨S, by simp [setPredecessorsLoop]⟩
  | cons l rest ih =>
      intro S f hsub hcnt
      simp only [setPredecessorsLoop]
      cases hv : S.visited.contains l with
      | true =>
          simp only [if_true]
          have hvis : (unionPreds (pushPred ⟨S.preds, l :: S.visited⟩ f l.1) f l.1).visited
              = l :: S.visited := by
            rw [unionPreds_visited, pushPred_visited]
          refine ih (fun x hx => hsub x (List.mem_cons_of_mem l hx)) ?_
          rw [hvis]
          exact le_trans (unvisitedCount_anti (List.subset_cons_self l S.visited)) hcnt
      | false =>
          simp only [Bool.false_eq_true, if_false]
          have hS2v : (pushPred ⟨S.preds, l :: S.visited⟩ f l.1).visited = l :: S.visited :=
            pushPred_visited _ _ _
          have hlt : unvisitedCount L (pushPred ⟨S.preds, l :: S.visited⟩ f l.1).visited < fuel := by
            rw [hS2v]
            exact lt_of_lt_of_le (unvisitedCount_cons_lt (hsub l (List.mem_cons_self l rest)) hv) hcnt
          obtain ⟨S3, h3⟩ := hF _ l.1 hlt
          rw [h3]
          refine ih (fun x hx => hsub x (List.mem_cons_of_mem l hx)) ?_
          have hm := setPredecessorsF_visited_mono fuel h3
          rw [hS2v] at hm
          rw [unionPreds_visited]
          calc unvisitedCount L S3.visited
              ≤ unvisitedCount L (l :: S.visited) := unvisitedCount_anti hm
            _ ≤ unvisitedCount L S.visited :=
                unvisitedCount_anti (List.subset_cons_self l S.visited)
            _ ≤ fuel := hcnt

theorem setPredecessorsF_ex {L : List LinkId} :
    ∀ (fuel : Nat) {S : PredState} {f : FactorId},
      unvisitedCount L S.visited < fuel →
      ∃ S', setPredecessorsF L fuel S f = some S' := by
  intro fuel
  induction fuel with
  | zero => intro S f h; exact absurd h (Nat.not_lt_zero _)
  | succ fuel ih =>
      intro S f h
      simp only [setPredecessorsF]
      exact setPredecessorsLoop_ex (fun S f h' => ih h')
        (fun l hl => (List.mem_filter.mp hl).1) (Nat.lt_succ_iff.mp h)

theorem makePredecessorListsF_ex (factors : List FactorId) (L : List LinkId) :
    ∃ S, makePredecessorListsF factors L = some S := by
  unfold makePredecessorListsF
  generalize (⟨fun _ => [], []⟩ : PredState) = S0
  induction factors generalizing S0 with
  | nil => exact ⟨S0, rfl⟩
  | cons f t ih =>
      rw [List.foldl_cons]
      obtain ⟨S1, h1⟩ := setPredecessorsF_ex (L := L) (L.length + 1) (S := S0) (f := f)
        (Nat.lt_succ_of_le (unvisitedCount_le_length L S0.visited))
      rw [Option.some_bind, h1]
      exact ih S1

/-- Every recorded predecessor really reaches its factor. -/
def SoundPreds (L : List LinkId) (S : PredState) : Prop :=
  ∀ g x, x ∈ S.preds g → Reaches L x g

theorem pushPred_sound {L : List LinkId} {S : PredState} {f src : FactorId}
    (hS : SoundPreds L S) (h : Reaches L src f) :
    SoundPreds L (pushPred S f src) := by
  intro g x hx
  rcases pushPred_mem hx with h1 | ⟨hg, hx'⟩
  · exact hS g x h1
  · subst hg; subst hx'; exact h

theorem unionPreds_sound {L : List LinkId} {S : PredState} {f src : FactorId}
    (hS : SoundPreds L S) (he : (src, f) ∈ L) :
    SoundPreds L (unionPreds S f src) := by
  intro g x hx
  rcases unionPreds_mem hx with h1 | ⟨hg, hx'⟩
  · exact hS g x h1
  · subst hg; exact (hS src x hx').extend he

theorem setPredecessorsLoop_sound {L : List LinkId} {fuel : Nat}
    (hF : ∀ {S : PredState} {f : FactorId} {S' : PredState},
      SoundPreds L S → setPredecessorsF L fuel S f = some S' → SoundPreds L S') :
    ∀ {ls : List LinkId} {S : PredState} {f : FactorId} {S' : PredState},
      (∀ l ∈ ls, l ∈ L ∧ l.2 = f) → SoundPreds L S →
      setPredecessorsLoop L fuel ls S f = some S' → SoundPreds L S' := by
  intro ls
  induction ls with
  | nil =>
      intro S f S' _ hS h
      simp only [setPredecessorsLoop, Option.some.injEq] at h
      exact h ▸ hS
  | cons l rest ih =>
      intro S f S' hls hS h
      simp only [setPredecessorsLoop] at h
      have hl := hls l (List.mem_cons_self l rest)
      have hedge : (l.1, f) ∈ L := by
        rw [← hl.2, Prod.mk.eta]; exact hl.1
      have hS1 : SoundPreds L (⟨S.preds, l :: S.visited⟩ : PredState) := hS
      have hS2 : SoundPreds L (pushPred ⟨S.preds, l :: S.visited⟩ f l.1) :=
        pushPred_sound hS1 (Reaches.single hedge)
      cases hv : S.visited.contains l with
      | true =>
          rw [hv] at h
          simp only [if_true] at h
          exact ih (fun x hx => hls x (List.mem_cons_of_mem l hx))
            (unionPreds_sound hS2 hedge) h
      | false =>
          rw [hv] at h
          simp only [Bool.false_eq_true, if_false] at h
          cases hr : setPredecessorsF L fuel (pushPred ⟨S.preds, l :: S.visited⟩ f l.1) l.1 with
          | none => rw [hr] at h; cases h
          | some S3 =>
              rw [hr] at h
              exact ih (fun x hx => hls x (List.mem_cons_of_mem l hx))
                (unionPreds_sound (hF hS2 hr) hedge) h

theorem setPredecessorsF_sound {L : List LinkId} :
    ∀ (fuel : Nat) {S : PredState} {f : FactorId} {S' : PredState},
      SoundPreds L S → setPredecessorsF L fuel S f = some S' → SoundPreds L S' := by
  intro fuel
  induction fuel with
  | zero => intro S f S' _ h; simp [setPredecessorsF] at h
  | succ fuel ih =>
      intro S f S' hS h
      simp only [setPredecessorsF] at h
      refine setPredecessorsLoop_sound (fun hS' h' => ih hS' h') (fun l hl => ?_) hS h
      have := List.mem_filter.mp hl
      exact ⟨this.1, by simpa using this.2⟩

theorem foldl_setPred_none {L : List LinkId} (fuel : Nat) :
    ∀ fs : List FactorId,
      fs.foldl (fun acc f => acc.bind fun S => setPredecessorsF L fuel S f) none = none := by
  intro fs
  induction fs with
  | nil => rfl
  | cons f t ih => simpa using ih

theorem makePredecessorListsF_sound {factors : List FactorId} {L : List LinkId} {S : PredState}
    (h : makePredecessorListsF factors L = some S) : SoundPreds L S := by
  unfold makePredecessorListsF at h
  have h0 : SoundPreds L (⟨fun _ => [], []⟩ : PredState) := by
    intro g x hx; cases hx
  revert h h0
  generalize (⟨fun _ => [], []⟩ : PredState) = S0
  induction factors generalizing S0 with
  | nil =>
      intro h h0
      simp only [List.foldl_nil, Option.some.injEq] at h
      exact h ▸ h0
  | cons f t ih =>
      intro h h0
      rw [List.foldl_cons, Option.some_bind] at h
      cases hr : setPredecessorsF L (L.length + 1) S0 f with
      | none => rw [hr, foldl_setPred_none] at h; cases h
      | some S1 =>
          rw [hr] at h
          exact ih S1 h (setPredecessorsF_sound _ h0 hr)

/-- Number of potential path-extension targets not yet on the path. -/
def freshCount (L : List LinkId) (path : List FactorId) : Nat :=
  ((L.map Prod.snd).dedup.filter (fun t => !path.contains t)).length

theorem freshCount_append_lt {L : List LinkId} {path : List FactorId} {l : LinkId}
    (hl : l ∈ L) (hm : l.2 ∉ path) :
    freshCount L (path ++ [l.2]) < freshCount L path := by
  refine length_filter_lt (a := l.2) (fun x hx => ?_) ?_ ?_ ?_
  · rw [Bool.not_eq_true'] at hx
    rw [Bool.not_eq_true']
    rw [contains_eq_false] at hx ⊢
    exact fun hmem => hx (List.mem_append_left _ hmem)
  · exact List.mem_dedup.mpr (List.mem_map_of_mem Prod.snd hl)
  · show (!path.contains l.2) = true
    rw [contains_eq_false.mpr hm]; rfl
  · show (!(path ++ [l.2]).contains l.2) = false
    have hc : (path ++ [l.2]).contains l.2 = true :=
      List.elem_iff.mpr (List.mem_append_right _ (List.mem_singleton_self _))
    rw [hc]; rfl

theorem freshCount_le_length (L : List LinkId) (path : List FactorId) :
    freshCount L path ≤ L.length :=
  le_trans (List.length_filter_le _ _)
    (le_trans (List.dedup_sublist _).length_le (le_of_eq (List.length_map _ _)))

theorem sproutLoop_ex {L : List LinkId} {fuel : Nat}
    (hF : ∀ path, freshCount L path < fuel →
      ∃ out, sproutPathsFromF L fuel path = some out) :
    ∀ {ls : List LinkId} {path : List FactorId},
      (∀ l ∈ ls, l ∈ L) → freshCount L path ≤ fuel →
      ∃ out, sproutLoop L fuel ls path = some out := by
  intro ls
  induction ls with
  | nil => intro path _ _; exact ⟨[], by simp [sproutLoop]⟩
  | cons l rest ih =>
      intro path hsub hcnt
      obtain ⟨t, ht⟩ := ih (fun x hx => hsub x (List.mem_cons_of_mem l hx)) hcnt
      simp only [sproutLoop]
      by_cases hm : l.2 ∈ path
      · rw [if_pos hm]
        by_cases hi : path.indexOf l.2 = 0
        · rw [if_pos hi, ht]; exact ⟨_, rfl⟩
        · rw [if_neg hi]; exact ⟨t, ht⟩
      · rw [if_neg hm]
        have hlt : freshCount L (path ++ [l.2]) < fuel :=
          lt_of_lt_of_le (freshCount_append_lt (hsub l (List.mem_cons_self l rest)) hm) hcnt
        obtain ⟨sub, hs⟩ := hF _ hlt
        rw [hs, ht]
        exact ⟨_, rfl⟩

theorem sproutPathsFromF_ex {L : List LinkId} :
    ∀ (fuel : Nat) (path : List FactorId), freshCount L path < fuel →
      ∃ out, sproutPathsFromF L fuel path = some out := by
  intro fuel
  induction fuel with
  | zero => intro path h; exact absurd h (Nat.not_lt_zero _)
  | succ fuel ih =>
      intro path h
      simp only [sproutPathsFromF]
      exact sproutLoop_ex ih (fun l hl => (List.mem_filter.mp hl).1) (Nat.lt_succ_iff.mp h)

theorem pathMatrixEntryLoop_ex {L : List LinkId} {fuel : Nat} {k : FactorId}
    (hf : ∀ path, freshCount L path < fuel) :
    ∀ (ls : List LinkId) (cur : Option (List (List FactorId))),
      ∃ out, pathMatrixEntryLoop L fuel k ls cur = some out := by
  intro ls
  induction ls with
  | nil => intro cur; exact ⟨cur, rfl⟩
  | cons l rest ih =>
      intro cur
      simp only [pathMatrixEntryLoop]
      by_cases hk : k = l.2
      · rw [if_pos hk]; exact ih _
      · rw [if_neg hk]
        obtain ⟨sub, hs⟩ := sproutPathsFromF_ex fuel [k, l.2] (hf _)
        rw [hs]
        exact ih _

theorem buildPathMatrixF_ex (factors : List FactorId) {L : List LinkId} {fuel : Nat}
    (hf : ∀ path, freshCount L path < fuel) :
    ∃ pm, buildPathMatrixF factors L fuel = some pm := by
  unfold buildPathMatrixF
  suffices h : ∀ (fs : List FactorId) (pm0 : List (FactorId × List (List FactorId))),
      ∃ pm, fs.foldl
        (fun acc k => acc.bind fun pm =>
          match pathMatrixEntryLoop L fuel k (outputsOf L k) none with
          | none => none
          | some none => some pm
          | some (some pl) => some (pm ++ [(k, pl)]))
        (some pm0) = some pm by
    exact h factors []
  intro fs
  induction fs with
  | nil => intro pm0; exact ⟨pm0, rfl⟩
  | cons k t ih =>
      intro pm0
      rw [List.foldl_cons, Option.some_bind]
      obtain ⟨out, hout⟩ := pathMatrixEntryLoop_ex hf (outputsOf L k) none
      rw [hout]
      cases out with
      | none => exact ih pm0
      | some pl => exact ih _

theorem cleanUpFeedbackLinks_eq (m : ClastModel) :
    ∃ pm S, buildPathMatrixF m.factors m.links (m.links.length + 1) = some pm ∧
      makePredecessorListsF m.factors m.links = some S ∧
      cleanUpFeedbackLinks m = { m with
        path_matrix := pm
        cycle_list := buildCycleList pm
        predecessors := m.factors.map (fun f => (f, S.preds f))
        feedback := m.links.map (fun l => (l, (S.preds l.1).contains l.2)) } := by
  obtain ⟨pm, hpm⟩ :=
    buildPathMatrixF_ex m.factors
      (fun path => (Nat.lt_succ_of_le (freshCount_le_length m.links path) :
        freshCount m.links path < m.links.length + 1))
  obtain ⟨S, hS⟩ := makePredecessorListsF_ex m.factors m.links
  exact ⟨pm, S, hpm, hS, by unfold cleanUpFeedbackLinks; rw [hpm, hS]⟩

theorem head_of_indexOf_zero {path : List FactorId} {tf : FactorId}
    (hm : tf ∈ path) (hi : path.indexOf tf = 0) : path.head? = some tf := by
  cases path with
  | nil => cases hm
  | cons a as =>
      by_cases hab : a = tf
      · subst hab; rfl
      · rw [List.indexOf_cons_ne as hab] at hi; cases hi

theorem chainL_concat {L : List LinkId} {path : List FactorId} {x tf : FactorId}
    (hch : ChainL L path) (hx : path.getLast? = some x) (he : (x, tf) ∈ L) :
    ChainL L (path ++ [tf]) := by
  refine List.chain'_append.mpr ⟨hch, List.chain'_singleton tf, ?_⟩
  intro a ha b hb
  rw [hx] at ha
  cases ha
  cases hb
  exact he

theorem head_append_of_ne_nil {path : List FactorId} (h : path ≠ []) (x : FactorId) :
    (path ++ [x]).head? = path.head? := by
  cases path with
  | nil => exact absurd rfl h
  | cons a as => rfl

/-- The invariant of every path recorded by the enumerator under origin `k`:
it starts at `k`, has at least two elements, every consecutive pair is a
stored link, and no factor repeats except that the last may equal the
first. -/
def GoodPath (L : List LinkId) (k : FactorId) (q : List FactorId) : Prop :=
  q.head? = some k ∧ 2 ≤ q.length ∧ ChainL L q ∧
    (q.Nodup ∨ (q.dropLast.Nodup ∧ q.getLast? = q.head?))

theorem sproutLoop_spec {L : List LinkId} {fuel : Nat}
    (hF : ∀ {path : List FactorId} {out : List (List FactorId)},
      sproutPathsFromF L fuel path = some out →
      path ≠ [] → ChainL L path → path.Nodup →
      ∀ q ∈ out, q.head? = path.head? ∧ ChainL L q ∧ path.length < q.length ∧
        (q.Nodup ∨ (q.dropLast.Nodup ∧ q.getLast? = q.head?))) :
    ∀ {ls : List LinkId} {path : List FactorId} {out : List (List FactorId)},
      sproutLoop L fuel ls path = some out →
      path ≠ [] → ChainL L path → path.Nodup →
      (∀ l ∈ ls, l ∈ L ∧ l.1 = path.getLastD 0) →
      ∀ q ∈ out, q.head? = path.head? ∧ ChainL L q ∧ path.length < q.length ∧
        (q.Nodup ∨ (q.dropLast.Nodup ∧ q.getLast? = q.head?)) := by
  intro ls
  induction ls with
  | nil =>
      intro path out h _ _ _ _ q hq
      simp only [sproutLoop, Option.some.injEq] at h
      subst h
      cases hq
  | cons l rest ih =>
      intro path out h hne hch hnd hls q hq
      simp only [sproutLoop] at h
      have hl := hls l (List.mem_cons_self l rest)
      obtain ⟨x, hx⟩ : ∃ x, path.getLast? = some x := by
        cases hgl : path.getLast? with
        | none => exact absurd (List.getLast?_eq_none_iff.mp hgl) hne
        | some x => exact ⟨x, rfl⟩
      have hxD : path.getLastD 0 = x := by
        rw [List.getLastD_eq_getLast?, hx]; rfl
      have hedge : (x, l.2) ∈ L := by
        have : (l.1, l.2) = l := Prod.mk.eta
        rw [← hxD, ← hl.2, this]
        exact hl.1
      have hchq : ChainL L (path ++ [l.2]) := chainL_concat hch hx hedge
      have hhead : (path ++ [l.2]).head? = path.head? := head_append_of_ne_nil hne l.2
      have hlen : path.length < (path ++ [l.2]).length := by
        rw [List.length_append, List.length_singleton]
        exact Nat.lt_succ_self _
      by_cases hm : l.2 ∈ path
      · rw [if_pos hm] at h
        by_cases hi : path.indexOf l.2 = 0
        · rw [if_pos hi] at h
          cases ht : sproutLoop L fuel rest path with
          | none => rw [ht] at h; cases h
          | some t =>
              rw [ht] at h
              simp only [Option.map_some', Option.some.injEq] at h
              subst h
              rcases List.mem_cons.mp hq with hq1 | hq2
              · subst hq1
                refine ⟨hhead, hchq, hlen, Or.inr ⟨?_, ?_⟩⟩
                · rw [List.dropLast_concat]; exact hnd
                · rw [List.getLast?_concat, hhead, head_of_indexOf_zero hm hi]
              · exact ih ht hne hch hnd (fun y hy => hls y (List.mem_cons_of_mem l hy)) q hq2
        · rw [if_neg hi] at h
          exact ih h hne hch hnd (fun y hy => hls y (List.mem_cons_of_mem l hy)) q hq
      · rw [if_neg hm] at h
        have hndq : (path ++ [l.2]).Nodup := by
          rw [List.nodup_append]
          exact ⟨hnd, List.nodup_singleton _, fun a ha hb =>
            hm ((List.mem_singleton.mp hb) ▸ ha)⟩
        cases hs : sproutPathsFromF L fuel (path ++ [l.2]) with
        | none => rw [hs] at h; cases h
        | some sub =>
            rw [hs] at h
            cases ht : sproutLoop L fuel rest path with
            | none => rw [ht] at h; cases h
            | some t =>
                rw [ht] at h
                simp only [Option.map_some', Option.some.injEq] at h
                subst h
                rcases List.mem_cons.mp hq with hq1 | hq2
                · subst hq1
                  exact ⟨hhead, hchq, hlen, Or.inl hndq⟩
                · rcases List.mem_append.mp hq2 with hq3 | hq4
                  · obtain ⟨h1, h2, h3, h4⟩ := hF hs (by simp) hchq hndq q hq3
                    exact ⟨h1.trans hhead, h2, lt_trans hlen h3, h4⟩
                  · exact ih ht hne hch hnd
                      (fun y hy => hls y (List.mem_cons_of_mem l hy)) q hq4

theorem sproutPathsFromF_spec {L : List LinkId} :
    ∀ (fuel : Nat) {path : List FactorId} {out : List (List FactorId)},
      sproutPathsFromF L fuel path = some out →
      path ≠ [] → ChainL L path → path.Nodup →
      ∀ q ∈ out, q.head? = path.head? ∧ ChainL L q ∧ path.length < q.length ∧
        (q.Nodup ∨ (q.dropLast.Nodup ∧ q.getLast? = q.head?)) := by
  intro fuel
  induction fuel with
  | zero => intro path out h; simp [sproutPathsFromF] at h
  | succ fuel ih =>
      intro path out h hne hch hnd
      simp only [sproutPathsFromF] at h
      exact sproutLoop_spec (fun h' => ih h') h hne hch hnd
        (fun l hl => ⟨(List.mem_filter.mp hl).1, by
          simpa using (List.mem_filter.mp hl).2⟩)

theorem pathMatrixEntryLoop_spec {L : List LinkId} {fuel : Nat} {k : FactorId} :
    ∀ {ls : List LinkId} {cur out : Option (List (List FactorId))},
      pathMatrixEntryLoop L fuel k ls cur = some out →
      (∀ l ∈ ls, l ∈ L ∧ l.1 = k) →
      (∀ pl, cur = some pl → ∀ q ∈ pl, GoodPath L k q) →
      ∀ pl, out = some pl → ∀ q ∈ pl, GoodPath L k q := by
  intro ls
  induction ls with
  | nil =>
      intro cur out h _ hcur pl hpl q hq
      simp only [pathMatrixEntryLoop, Option.some.injEq] at h
      exact hcur pl (h ▸ hpl) q hq
  | cons l rest ih =>
      intro cur out h hls hcur pl hpl q hq
      simp only [pathMatrixEntryLoop] at h
      have hl := hls l (List.mem_cons_self l rest)
      by_cases hk : k = l.2
      · rw [if_pos hk] at h
        refine ih h (fun y hy => hls y (List.mem_cons_of_mem l hy)) ?_ pl hpl q hq
        intro pl' hpl' q' hq'
        cases hpl'
        have hq'' : q' = [k, l.2] := List.mem_singleton.mp hq'
        subst hq''
        have hedge : (k, l.2) ∈ L := by
          have hp : (l.1, l.2) = l := Prod.mk.eta
          rw [← hl.2, hp]; exact hl.1
        refine ⟨rfl, by simp, ?_, Or.inr ⟨by simp [← hk], by simp [← hk]⟩⟩
        exact List.chain'_pair.mpr hedge
      · rw [if_neg hk] at h
        cases hs : sproutPathsFromF L fuel [k, l.2] with
        | none => rw [hs] at h; cases h
        | some sub =>
            rw [hs] at h
            refine ih h (fun y hy => hls y (List.mem_cons_of_mem l hy)) ?_ pl hpl q hq
            intro pl' hpl' q' hq'
            cases hpl'
            have hedge : (k, l.2) ∈ L := by
              have hp : (l.1, l.2) = l := Prod.mk.eta
              rw [← hl.2, hp]; exact hl.1
            have hchp : ChainL L [k, l.2] := List.chain'_pair.mpr hedge
            have hndp : ([k, l.2] : List FactorId).Nodup := by
              simp [List.nodup_cons, hk]
            rcases List.mem_cons.mp hq' with hq1 | hq2
            · subst hq1
              exact ⟨rfl, by simp, hchp, Or.inl hndp⟩
            · obtain ⟨h1, h2, h3, h4⟩ :=
                sproutPathsFromF_spec fuel hs (by simp) hchp hndp q' hq2
              exact ⟨h1, le_of_lt (by simpa using h3), h2, h4⟩

theorem buildPathMatrixF_spec {factors : List FactorId} {L : List LinkId} {fuel : Nat}
    {pm : List (FactorId × List (List FactorId))}
    (h : buildPathMatrixF factors L fuel = some pm) :
    ∀ k pl, (k, pl) ∈ pm → ∀ q ∈ pl, GoodPath L k q := by
  unfold buildPathMatrixF at h
  suffices hgen : ∀ (fs : List FactorId) (pm0 pm' : List (FactorId × List (List FactorId))),
      (∀ k pl, (k, pl) ∈ pm0 → ∀ q ∈ pl, GoodPath L k q) →
      fs.foldl
        (fun acc k => acc.bind fun pm =>
          match pathMatrixEntryLoop L fuel k (outputsOf L k) none with
          | none => none
          | some none => some pm
          | some (some pl) => some (pm ++ [(k, pl)]))
        (some pm0) = some pm' →
      ∀ k pl, (k, pl) ∈ pm' → ∀ q ∈ pl, GoodPath L k q by
    exact hgen factors [] pm (by intro k pl hk; cases hk) h
  intro fs
  induction fs with
  | nil =>
      intro pm0 pm' h0 hf
      simp only [List.foldl_nil, Option.some.injEq] at hf
      exact hf ▸ h0
  | cons k0 t ih =>
      intro pm0 pm' h0 hf
      rw [List.foldl_cons, Option.some_bind] at hf
      cases he : pathMatrixEntryLoop L fuel k0 (outputsOf L k0) none with
      | none =>
          rw [he] at hf
          rw [show ((none : Option (List (FactorId × List (List FactorId))))) = none from rfl] at hf
          have : ∀ (u : List FactorId),
              u.foldl (fun acc k => acc.bind fun pm =>
                match pathMatrixEntryLoop L fuel k (outputsOf L k) none with
                | none => none
                | some none => some pm
                | some (some pl) => some (pm ++ [(k, pl)])) none = none := by
            intro u
            induction u with
            | nil => rfl
            | cons a b ihb => simpa using ihb
          rw [this t] at hf
          cases hf
      | some out =>
          rw [he] at hf
          have hout : ∀ pl, out = some pl → ∀ q ∈ pl, GoodPath L k0 q := by
            refine pathMatrixEntryLoop_spec he ?_ (fun pl hpl => by cases hpl)
            intro l hl
            have := List.mem_filter.mp hl
            exact ⟨this.1, by simpa using this.2⟩
          cases out with
          | none => exact ih pm0 pm' h0 hf
          | some pl =>
              refine ih (pm0 ++ [(k0, pl)]) pm' ?_ hf
              intro k' pl' hk'
              rcases List.mem_append.mp hk' with h1 | h2
              · exact h0 k' pl' h1
              · have h3 := List.mem_singleton.mp h2
                have hk'' : k' = k0 ∧ pl' = pl := Prod.mk.inj_iff.mp h3
                rw [hk''.1, hk''.2]
                exact hout pl rfl

theorem cycleStep_mem {cl : List (List FactorId)} {p c : List FactorId}
    (h : c ∈ cycleStep cl p) :
    c ∈ cl ∨ (c = p ∧ p.headD 0 = p.getLastD 0) := by
  unfold cycleStep at h
  split at h
  · split at h
    · exact Or.inl h
    · rcases List.mem_append.mp h with h1 | h2
      · exact Or.inl h1
      · rename_i hclose _
        exact Or.inr ⟨List.mem_singleton.mp h2, hclose⟩
  · exact Or.inl h

theorem buildCycleList_mem {pm : List (FactorId × List (List FactorId))}
    {c : List FactorId} (h : c ∈ buildCycleList pm) :
    ∃ k pl, (k, pl) ∈ pm ∧ c ∈ pl ∧ c.headD 0 = c.getLastD 0 := by
  unfold buildCycleList at h
  suffices hgen : ∀ (entries : List (FactorId × List (List FactorId)))
      (cl0 : List (List FactorId)),
      (∀ e ∈ entries, e ∈ pm) →
      (∀ c' ∈ cl0, ∃ k pl, (k, pl) ∈ pm ∧ c' ∈ pl ∧ c'.headD 0 = c'.getLastD 0) →
      ∀ c' ∈ entries.foldl (fun cl entry => entry.2.foldl cycleStep cl) cl0,
        ∃ k pl, (k, pl) ∈ pm ∧ c' ∈ pl ∧ c'.headD 0 = c'.getLastD 0 by
    exact hgen pm [] (fun e he => he) (fun c' hc' => by cases hc') c h
  intro entries
  induction entries with
  | nil => intro cl0 _ h0 c' hc'; exact h0 c' hc'
  | cons e t ih =>
      intro cl0 hent h0 c' hc'
      rw [List.foldl_cons] at hc'
      refine ih _ (fun e' he' => hent e' (List.mem_cons_of_mem e he')) ?_ c' hc'
      have hepm : e ∈ pm := hent e (List.mem_cons_self e t)
      suffices hin : ∀ (paths : List (List FactorId)) (cl1 : List (List FactorId)),
          (∀ p ∈ paths, p ∈ e.2) →
          (∀ c'' ∈ cl1, ∃ k pl, (k, pl) ∈ pm ∧ c'' ∈ pl ∧ c''.headD 0 = c''.getLastD 0) →
          ∀ c'' ∈ paths.foldl cycleStep cl1,
            ∃ k pl, (k, pl) ∈ pm ∧ c'' ∈ pl ∧ c''.headD 0 = c''.getLastD 0 by
        exact hin e.2 cl0 (fun p hp => hp) h0
      intro paths
      induction paths with
      | nil => intro cl1 _ h1 c'' hc''; exact h1 c'' hc''
      | cons p t' ihp =>
          intro cl1 hp h1 c'' hc''
          rw [List.foldl_cons] at hc''
          refine ihp _ (fun p' hp' => hp p' (List.mem_cons_of_mem p hp')) ?_ c'' hc''
          intro c3 hc3
          rcases cycleStep_mem hc3 with h2 | ⟨h3, h4⟩
          · exact h1 c3 h2
          · exact ⟨e.1, e.2, by rw [Prod.mk.eta]; exact hepm,
              h3 ▸ hp p (List.mem_cons_self p t'), h3 ▸ h4⟩

theorem intersection_length_iff {p c : List FactorId} :
    (intersection p c).length = p.length ↔ ∀ x ∈ p, x ∈ c := by
  unfold intersection
  constructor
  · intro h x hx
    have hs : p.filter (fun x => decide (x ∈ c)) = p := (List.filter_sublist p).eq_of_length h
    rw [← hs] at hx
    simpa using (List.mem_filter.mp hx).2
  · intro h
    rw [List.filter_eq_self.mpr (fun a ha => by simpa using h a ha)]

theorem foldl_or_eq (g : List FactorId → Bool) :
    ∀ (cl : List (List FactorId)) (b : Bool),
      cl.foldl (fun known c => known || g c) b = (b || cl.any g) := by
  intro cl
  induction cl with
  | nil => intro b; simp
  | cons c t ih => intro b; rw [List.foldl_cons, ih, List.any_cons, Bool.or_assoc]

theorem cycleKnown_iff {cl : List (List FactorId)} {p : List FactorId} :
    cycleKnown cl p = true ↔ ∃ c ∈ cl, p.length = c.length ∧ ∀ x ∈ p, x ∈ c := by
  unfold cycleKnown
  rw [foldl_or_eq]
  simp only [Bool.false_or, List.any_eq_true, Bool.and_eq_true, beq_iff_eq]
  constructor
  · rintro ⟨c, hc, h1, h2⟩
    exact ⟨c, hc, h1, intersection_length_iff.mp h2⟩
  · rintro ⟨c, hc, h1, h2⟩
    exact ⟨c, hc, h1, intersection_length_iff.mpr h2⟩

theorem cycleStep_pairwise {cl : List (List FactorId)} {p : List FactorId}
    (h : cl.Pairwise (fun a b => ¬(a.length = b.length ∧ a.toFinset = b.toFinset))) :
    (cycleStep cl p).Pairwise (fun a b => ¬(a.length = b.length ∧ a.toFinset = b.toFinset)) := by
  unfold cycleStep
  split
  · cases hk : cycleKnown cl p with
    | true => simpa [hk] using h
    | false =>
        simp only [hk, Bool.false_eq_true, if_false]
        refine List.pairwise_append.mpr ⟨h, by simp, ?_⟩
        intro a ha b hb
        cases List.mem_singleton.mp hb
        rintro ⟨hlen, hfin⟩
        have : cycleKnown cl p = true := cycleKnown_iff.mpr
          ⟨a, ha, hlen.symm, fun x hx => by
            have hx1 : x ∈ p.toFinset := List.mem_toFinset.mpr hx
            rw [← hfin] at hx1
            exact List.mem_toFinset.mp hx1⟩
        rw [hk] at this
        cases this
  · exact h

theorem buildCycleList_pairwise (pm : List (FactorId × List (List FactorId))) :
    (buildCycleList pm).Pairwise
      (fun a b => ¬(a.length = b.length ∧ a.toFinset = b.toFinset)) := by
  unfold buildCycleList
  suffices hgen : ∀ (entries : List (FactorId × List (List FactorId)))
      (cl0 : List (List FactorId)),
      cl0.Pairwise (fun a b => ¬(a.length = b.length ∧ a.toFinset = b.toFinset)) →
      (entries.foldl (fun cl entry => entry.2.foldl cycleStep cl) cl0).Pairwise
        (fun a b => ¬(a.length = b.length ∧ a.toFinset = b.toFinset)) by
    exact hgen pm [] List.Pairwise.nil
  intro entries
  induction entries with
  | nil => intro cl0 h0; exact h0
  | cons e t ih =>
      intro cl0 h0
      rw [List.foldl_cons]
      refine ih _ ?_
      suffices hin : ∀ (paths : List (List FactorId)) (cl1 : List (List FactorId)),
          cl1.Pairwise (fun a b => ¬(a.length = b.length ∧ a.toFinset = b.toFinset)) →
          (paths.foldl cycleStep cl1).Pairwise
            (fun a b => ¬(a.length = b.length ∧ a.toFinset = b.toFinset)) by
        exact hin e.2 cl0 h0
      intro paths
      induction paths with
      | nil => intro cl1 h1; exact h1
      | cons p t' ihp => intro cl1 h1; exact ihp _ (cycleStep_pairwise h1)

theorem chainL_reaches {L : List LinkId} :
    ∀ {p : List FactorId} {a e : FactorId},
      ChainL L p → p.head? = some a → p.getLast? = some e → 2 ≤ p.length →
      Reaches L a e := by
  intro p
  induction p with
  | nil => intro a e _ h; cases h
  | cons x rest ih =>
      intro a e hch hhd hlast hlen
      cases hhd
      cases rest with
      | nil => simp at hlen
      | cons b t =>
          have hxb : (x, b) ∈ L := (List.chain'_cons.mp hch).1
          have hch' : ChainL L (b :: t) := (List.chain'_cons.mp hch).2
          rw [List.getLast?_cons_cons] at hlast
          cases t with
          | nil =>
              simp only [List.getLast?_singleton, Option.some.injEq] at hlast
              exact hlast ▸ Reaches.single hxb
          | cons c u =>
              exact Reaches.step hxb (ih hch' rfl hlast (by simp))

theorem cleanUpFeedbackLinks_factors (m : ClastModel) :
    (cleanUpFeedbackLinks m).factors = m.factors := by
  unfold cleanUpFeedbackLinks
  split <;> rfl

theorem cleanUpFeedbackLinks_links (m : ClastModel) :
    (cleanUpFeedbackLinks m).links = m.links := by
  unfold cleanUpFeedbackLinks
  split <;> rfl

theorem cleanUpFeedbackLinks_congr {m1 m2 : ClastModel}
    (h1 : m1.factors = m2.factors) (h2 : m1.links = m2.links) :
    (cleanUpFeedbackLinks m1).path_matrix = (cleanUpFeedbackLinks m2).path_matrix ∧
    (cleanUpFeedbackLinks m1).cycle_list = (cleanUpFeedbackLinks m2).cycle_list ∧
    (cleanUpFeedbackLinks m1).predecessors = (cleanUpFeedbackLinks m2).predecessors ∧
    (cleanUpFeedbackLinks m1).feedback = (cleanUpFeedbackLinks m2).feedback := by
  obtain ⟨pm1, S1, hpm1, hS1, heq1⟩ := cleanUpFeedbackLinks_eq m1
  obtain ⟨pm2, S2, hpm2, hS2, heq2⟩ := cleanUpFeedbackLinks_eq m2
  rw [h1, h2] at hpm1 hS1
  rw [hpm2] at hpm1
  rw [hS2] at hS1
  have hpm : pm1 = pm2 := (Option.some.injEq _ _ ▸ hpm1.symm :)
  have hSeq : S1 = S2 := (Option.some.injEq _ _ ▸ hS1.symm :)
  rw [heq1, heq2, hpm, hSeq, h1, h2]
  exact ⟨rfl, rfl, rfl, rfl⟩

theorem freshCount_le_factors {factors : List FactorId} {L : List LinkId}
    (hw : ∀ l ∈ L, l.2 ∈ factors) (path : List FactorId) :
    freshCount L path ≤ factors.length := by
  unfold freshCount
  refine le_trans (List.length_filter_le _ _) ?_
  have h1 : (L.map Prod.snd).dedup.Nodup := List.nodup_dedup _
  have h2 : ∀ x ∈ (L.map Prod.snd).dedup, x ∈ factors := by
    intro x hx
    obtain ⟨l, hl, hlx⟩ := List.mem_map.mp (List.mem_dedup.mp hx)
    exact hlx ▸ hw l hl
  calc (L.map Prod.snd).dedup.length
      = (L.map Prod.snd).dedup.toFinset.card := (List.toFinset_card_of_nodup h1).symm
    _ ≤ factors.toFinset.card := Finset.card_le_card (fun x hx =>
        List.mem_toFinset.mpr (h2 x (List.mem_toFinset.mp hx)))
    _ ≤ factors.length := factors.toFinset_card_le

theorem reaches_edge01 {u v : FactorId} (h : Reaches [(0, 1)] u v) :
    u = 0 ∧ v = 1 := by
  induction h with
  | single hm => exact Prod.mk.inj_iff.mp (List.mem_singleton.mp hm)
  | step hm _ ih =>
      have h1 := Prod.mk.inj_iff.mp (List.mem_singleton.mp hm)
      exact ⟨h1.1, ih.2⟩

/-- C1.  The feedback flags and the cycle registry disagree on the store with
factors 0, 1 and links (0,0) then (0,1): after the recompute, link (0,0) is
flagged feedback (0 is its own predecessor via the self-loop), yet the path
matrix holds only the path [0,1] — the `path_matrix[k] = [path]` assignment of
the second output link of factor 0 overwrote the recorded self-loop candidate
[0,0] — so the cycle list is empty and no recorded candidate closes through
(0,0). -/
theorem C1_feedback_flag_without_registry_candidate :
    (cleanUpFeedbackLinks (mkModel [0, 1] [(0, 0), (0, 1)])).feedback
        = [((0, 0), true), ((0, 1), false)] ∧
    (cleanUpFeedbackLinks (mkModel [0, 1] [(0, 0), (0, 1)])).path_matrix
        = [(0, [[0, 1]])] ∧
    (cleanUpFeedbackLinks (mkModel [0, 1] [(0, 0), (0, 1)])).cycle_list = [] := by
  refine ⟨?_, ?_, ?_⟩ <;>
    simp [cleanUpFeedbackLinks, buildPathMatrixF, makePredecessorListsF, pathMatrixEntryLoop,
      sproutPathsFromF, sproutLoop, setPredecessorsF, setPredecessorsLoop, outputsOf, inputsOf,
      pushPred, unionPreds, buildCycleList, cycleStep, cycleKnown, intersection, mkModel]

/-- C2.  With factors 0, 1, 2 and the two outgoing links (0,1) then (0,2) of
factor 0, the enumerator's per-origin output for 0 holds only the path [0,2]
grown from the *last* outgoing link: the path [0,1] from the first outgoing
link was overwritten by `path_matrix[k] = [path]`, so the enumeration is not
exhaustive over all of 0's outgoing edges. -/
theorem C2_path_matrix_drops_earlier_outgoing_edges :
    outputsOf [(0, 1), (0, 2)] 0 = [(0, 1), (0, 2)] ∧
    (cleanUpFeedbackLinks (mkModel [0, 1, 2] [(0, 1), (0, 2)])).path_matrix
        = [(0, [[0, 2]])] := by
  constructor
  · rfl
  · simp [cleanUpFeedbackLinks, buildPathMatrixF, makePredecessorListsF, pathMatrixEntryLoop,
      sproutPathsFromF, sproutLoop, setPredecessorsF, setPredecessorsLoop, outputsOf, inputsOf,
      pushPred, unionPreds, buildCycleList, cycleStep, cycleKnown, intersection, mkModel]

/-- C3.  On the store with factors 0,1,2,3 and links (0,2), (2,1), (2,3),
(1,3), (3,0) — every node lies on a directed cycle, so the transitive closure
into any node is {0,1,2,3} — the recompute leaves factor 1 with predecessor
list [2,0,3]: factor 1 is missing although 1 reaches 1 via 1→3→0→2→1, so the
computed predecessor sets are not the transitive closure. -/
theorem C3_predecessors_miss_transitive_closure :
    (cleanUpFeedbackLinks (mkModel [0, 1, 2, 3]
        [(0, 2), (2, 1), (2, 3), (1, 3), (3, 0)])).predecessors
      = [(0, [3, 2, 0, 1]), (1, [2, 0, 3]), (2, [0, 3, 2, 1]), (3, [2, 0, 3, 1])] ∧
    (1 : FactorId) ∉ [2, 0, 3] ∧
    Reaches [(0, 2), (2, 1), (2, 3), (1, 3), (3, 0)] 1 1 := by
  refine ⟨?_, by decide, ?_⟩
  · simp [cleanUpFeedbackLinks, buildPathMatrixF, makePredecessorListsF, pathMatrixEntryLoop,
      sproutPathsFromF, sproutLoop, setPredecessorsF, setPredecessorsLoop, outputsOf, inputsOf,
      pushPred, unionPreds, buildCycleList, cycleStep, cycleKnown, intersection, mkModel]
  · exact Reaches.step (show ((1 : FactorId), (3 : FactorId)) ∈ _ by decide)
      (Reaches.step (show ((3 : FactorId), (0 : FactorId)) ∈ _ by decide)
        (Reaches.step (show ((0 : FactorId), (2 : FactorId)) ∈ _ by decide)
          (Reaches.single (show ((2 : FactorId), (1 : FactorId)) ∈ _ by decide))))

/-- C4.  On every store whose links admit no directed cycle, the recompute
leaves an empty cycle list and sets every is-feedback flag to false. -/
theorem C4_acyclic_no_cycles_no_feedback (m : ClastModel)
    (hA : ∀ n, ¬ Reaches m.links n n) :
    (cleanUpFeedbackLinks m).cycle_list = [] ∧
    ∀ pr ∈ (cleanUpFeedbackLinks m).feedback, pr.2 = false := by
  obtain ⟨pm, S, hpm, hS, heq⟩ := cleanUpFeedbackLinks_eq m
  rw [heq]
  constructor
  · rw [List.eq_nil_iff_forall_not_mem]
    intro c hc
    obtain ⟨k, pl, hkpl, hcpl, hclose⟩ := buildCycleList_mem hc
    obtain ⟨hhead, hlen, hch, _⟩ := buildPathMatrixF_spec hpm k pl hkpl c hcpl
    have hcne : c ≠ [] := by
      intro h; rw [h] at hlen; simp at hlen
    obtain ⟨e, he⟩ : ∃ e, c.getLast? = some e := by
      cases hgl : c.getLast? with
      | none => exact absurd (List.getLast?_eq_none_iff.mp hgl) hcne
      | some e => exact ⟨e, rfl⟩
    have hheadD : c.headD 0 = k := by rw [List.headD_eq_head?, hhead]; rfl
    have hlastD : c.getLastD 0 = e := by rw [List.getLastD_eq_getLast?, he]; rfl
    have hke : k = e := by rw [← hheadD, ← hlastD]; exact hclose
    have hre : Reaches m.links k e := chainL_reaches hch hhead he hlen
    rw [← hke] at hre
    exact hA k hre
  · intro pr hpr
    obtain ⟨l, hl, hpr'⟩ := List.mem_map.mp hpr
    subst hpr'
    show (S.preds l.1).contains l.2 = false
    cases hcont : (S.preds l.1).contains l.2 with
    | false => rfl
    | true =>
        have hmem : l.2 ∈ S.preds l.1 := List.elem_iff.mp hcont
        have hr : Reaches m.links l.2 l.1 := makePredecessorListsF_sound hS l.1 l.2 hmem
        exact absurd (hr.extend (by rw [Prod.mk.eta]; exact hl)) (hA l.2)

theorem C4_acyclic_no_cycles_no_feedback_witness :
    (cleanUpFeedbackLinks (mkModel [0, 1] [(0, 1)])).cycle_list = [] ∧
    ∀ pr ∈ (cleanUpFeedbackLinks (mkModel [0, 1] [(0, 1)])).feedback, pr.2 = false :=
  C4_acyclic_no_cycles_no_feedback (mkModel [0, 1] [(0, 1)])
    (fun n h => by
      obtain ⟨h1, h2⟩ := reaches_edge01 h
      rw [h1] at h2
      exact absurd h2 (by decide))

/-- C5.  `deleteFactor` deletes no link touching the doomed factor: its
matching test reads the nonexistent properties `from_node` / `to_node` of
each Link, so the link-removal loop never fires; the subsequent
`node.parent.deleteFactor(node)` call then raises a TypeError (no class of
the provided source defines that method), so the operation aborts before
even the factor itself is removed.  Deleting factor 0 from the store with
factors 0, 1 and link (0,1) throws with the store unchanged: link (0,1)
still has factor 0 as its source. -/
theorem C5_deleteFactor_leaves_incident_links :
    deleteFactor (mkModel [0, 1] [(0, 1)]) 0
      = Except.error ("TypeError: node.parent.deleteFactor is not a function",
          mkModel [0, 1] [(0, 1)]) := by
  simp [deleteFactor, linkTouchesDeletedNode, mkModel]

/-- C6 counterexample.  `deleteLink` itself runs `cleanUpFeedbackLinks`: on
the two-node loop store (links (0,1), (1,0), both flagged feedback, one
recorded cycle), deleting link (0,1) leaves the remaining link's flag false
and the cycle list empty — the derived data did change inside the remove
operation, before any caller-triggered recompute. -/
theorem C6_deleteLink_recomputes_counterexample :
    (cleanUpFeedbackLinks (mkModel [0, 1] [(0, 1), (1, 0)])).feedback
        = [((0, 1), true), ((1, 0), true)] ∧
    (cleanUpFeedbackLinks (mkModel [0, 1] [(0, 1), (1, 0)])).cycle_list = [[0, 1, 0]] ∧
    (deleteLink (cleanUpFeedbackLinks (mkModel [0, 1] [(0, 1), (1, 0)])) (0, 1)).feedback
        = [((1, 0), false)] ∧
    (deleteLink (cleanUpFeedbackLinks (mkModel [0, 1] [(0, 1), (1, 0)])) (0, 1)).cycle_list
        = [] := by
  refine ⟨?_, ?_, ?_, ?_⟩ <;>
    simp [deleteLink, cleanUpFeedbackLinks, buildPathMatrixF, makePredecessorListsF,
      pathMatrixEntryLoop, sproutPathsFromF, sproutLoop, setPredecessorsF, setPredecessorsLoop,
      outputsOf, inputsOf, pushPred, unionPreds, buildCycleList, cycleStep, cycleKnown,
      intersection, mkModel, List.erase]

/-- C6 amended.  `deleteLink` removes the link from the store (hence from
both derived adjacency lists) and then itself triggers the full recompute:
the resulting model is exactly `cleanUpFeedbackLinks` of the store without
the link. -/
theorem C6_deleteLink_removes_and_recomputes (m : ClastModel) (l : LinkId)
    (h : m.links.Nodup) :
    (deleteLink m l).links = m.links.erase l ∧
    l ∉ (deleteLink m l).links ∧
    l ∉ outputsOf (deleteLink m l).links l.1 ∧
    l ∉ inputsOf (deleteLink m l).links l.2 ∧
    deleteLink m l = cleanUpFeedbackLinks { m with links := m.links.erase l } := by
  have hlinks : (deleteLink m l).links = m.links.erase l := by
    show (cleanUpFeedbackLinks { m with links := m.links.erase l }).links = m.links.erase l
    rw [cleanUpFeedbackLinks_links]
  have hnotmem : l ∉ (deleteLink m l).links := by
    rw [hlinks]
    intro hm
    exact ((List.Nodup.mem_erase_iff h).mp hm).1 rfl
  refine ⟨hlinks, hnotmem, ?_, ?_, rfl⟩
  · intro hm; exact hnotmem (List.mem_filter.mp hm).1
  · intro hm; exact hnotmem (List.mem_filter.mp hm).1

theorem C6_deleteLink_removes_and_recomputes_witness :
    (deleteLink (mkModel [0, 1] [(0, 1), (1, 0)]) (0, 1)).links = [(0, 1), (1, 0)].erase (0, 1) ∧
    (0, 1) ∉ (deleteLink (mkModel [0, 1] [(0, 1), (1, 0)]) (0, 1)).links ∧
    (0, 1) ∉ outputsOf (deleteLink (mkModel [0, 1] [(0, 1), (1, 0)]) (0, 1)).links 0 ∧
    (0, 1) ∉ inputsOf (deleteLink (mkModel [0, 1] [(0, 1), (1, 0)]) (0, 1)).links 1 ∧
    deleteLink (mkModel [0, 1] [(0, 1), (1, 0)]) (0, 1)
      = cleanUpFeedbackLinks { mkModel [0, 1] [(0, 1), (1, 0)] with
          links := [(0, 1), (1, 0)].erase (0, 1) } :=
  C6_deleteLink_removes_and_recomputes (mkModel [0, 1] [(0, 1), (1, 0)]) (0, 1) (by decide)

/-- C7.  The cycle registry appends a candidate closing path iff the `known`
test fails, and the `known` test holds iff some already accepted cycle has
equal length and contains every node of the candidate; consequently the
final cycle list of any recompute never holds two cycles of equal length and
identical node sets. -/
theorem C7_cycle_registry_dedup :
    (∀ (cl : List (List FactorId)) (p : List FactorId),
      p.headD 0 = p.getLastD 0 →
      (cycleStep cl p = if cycleKnown cl p then cl else cl ++ [p]) ∧
      (cycleKnown cl p = true ↔ ∃ c ∈ cl, p.length = c.length ∧ ∀ x ∈ p, x ∈ c)) ∧
    (∀ m : ClastModel, ((cleanUpFeedbackLinks m).cycle_list).Pairwise
      (fun a b => ¬(a.length = b.length ∧ a.toFinset = b.toFinset))) := by
  constructor
  · intro cl p hc
    exact ⟨by unfold cycleStep; rw [if_pos hc], cycleKnown_iff⟩
  · intro m
    obtain ⟨pm, S, hpm, hS, heq⟩ := cleanUpFeedbackLinks_eq m
    rw [heq]
    exact buildCycleList_pairwise pm

theorem C7_cycle_registry_dedup_witness :
    (cycleStep [[0, 1, 0]] [1, 0, 1]
        = if cycleKnown [[0, 1, 0]] [1, 0, 1] then [[0, 1, 0]] else [[0, 1, 0]] ++ [[1, 0, 1]]) ∧
    (cycleKnown [[0, 1, 0]] [1, 0, 1] = true ↔
      ∃ c ∈ [[0, 1, 0]], ([1, 0, 1] : List FactorId).length = c.length ∧
        ∀ x ∈ ([1, 0, 1] : List FactorId), x ∈ c) :=
  C7_cycle_registry_dedup.1 [[0, 1, 0]] [1, 0, 1] rfl

/-- C8.  On a well-formed store (every link's endpoints are stored factors)
the recompute terminates: the predecessor recursion succeeds with fuel one
more than the link count (each link is traversed at most once per pass), and
the path enumeration succeeds with fuel one more than the factor count (a
path never revisits a non-origin factor, so recursion depth is bounded by
the number of nodes). -/
theorem C8_recompute_terminates (m : ClastModel)
    (hw : ∀ l ∈ m.links, l.1 ∈ m.factors ∧ l.2 ∈ m.factors) :
    (∀ (S : PredState) (f : FactorId),
      ∃ S', setPredecessorsF m.links (m.links.length + 1) S f = some S') ∧
    (∃ S, makePredecessorListsF m.factors m.links = some S) ∧
    (∀ path, ∃ out, sproutPathsFromF m.links (m.factors.length + 1) path = some out) ∧
    (∃ pm, buildPathMatrixF m.factors m.links (m.factors.length + 1) = some pm) := by
  refine ⟨fun S f => setPredecessorsF_ex _ (Nat.lt_succ_of_le (unvisitedCount_le_length _ _)),
    makePredecessorListsF_ex _ _,
    fun path => sproutPathsFromF_ex _ path
      (Nat.lt_succ_of_le (freshCount_le_factors (fun l hl => (hw l hl).2) path)),
    buildPathMatrixF_ex m.factors
      (fun path => (Nat.lt_succ_of_le (freshCount_le_factors (fun l hl => (hw l hl).2) path) :
        freshCount m.links path < m.factors.length + 1))⟩

theorem C8_recompute_terminates_witness :
    (∀ (S : PredState) (f : FactorId),
      ∃ S', setPredecessorsF [(0, 1), (1, 0)] ([(0, 1), (1, 0)].length + 1) S f = some S') ∧
    (∃ S, makePredecessorListsF [0, 1] [(0, 1), (1, 0)] = some S) ∧
    (∀ path, ∃ out, sproutPathsFromF [(0, 1), (1, 0)] (([0, 1] : List FactorId).length + 1)
        path = some out) ∧
    (∃ pm, buildPathMatrixF [0, 1] [(0, 1), (1, 0)] (([0, 1] : List FactorId).length + 1)
        = some pm) :=
  C8_recompute_terminates (mkModel [0, 1] [(0, 1), (1, 0)]) (by decide)

/-- C9.  Running the recompute twice in a row without any mutation in
between yields exactly the same derived data (path matrix, cycle list,
predecessor lists, feedback flags) as running it once: the pass reads only
the stored factors and links, which it does not modify. -/
theorem C9_recompute_idempotent (m : ClastModel) :
    (cleanUpFeedbackLinks (cleanUpFeedbackLinks m)).cycle_list
        = (cleanUpFeedbackLinks m).cycle_list ∧
    (cleanUpFeedbackLinks (cleanUpFeedbackLinks m)).feedback
        = (cleanUpFeedbackLinks m).feedback ∧
    (cleanUpFeedbackLinks (cleanUpFeedbackLinks m)).predecessors
        = (cleanUpFeedbackLinks m).predecessors ∧
    (cleanUpFeedbackLinks (cleanUpFeedbackLinks m)).path_matrix
        = (cleanUpFeedbackLinks m).path_matrix := by
  obtain ⟨h1, h2, h3, h4⟩ := cleanUpFeedbackLinks_congr
    (cleanUpFeedbackLinks_factors m) (cleanUpFeedbackLinks_links m)
  exact ⟨h2, h4, h3, h1⟩

/-- C10.  Every path recorded in the path matrix under origin `k` is a
genuine edge-path: it starts at `k`, has at least two factors, its
consecutive pairs are stored links, and no factor repeats except that the
last may equal the first; and every entry of the cycle list is a real closed
edge-walk. -/
theorem C10_recorded_paths_genuine (m : ClastModel) :
    (∀ k pl, (k, pl) ∈ (cleanUpFeedbackLinks m).path_matrix →
      ∀ q ∈ pl, GoodPath m.links k q) ∧
    (∀ c ∈ (cleanUpFeedbackLinks m).cycle_list,
      c.headD 0 = c.getLastD 0 ∧ 2 ≤ c.length ∧ ChainL m.links c ∧ c.dropLast.Nodup) := by
  obtain ⟨pm, S, hpm, hS, heq⟩ := cleanUpFeedbackLinks_eq m
  rw [heq]
  constructor
  · intro k pl hkpl q hq
    exact buildPathMatrixF_spec hpm k pl hkpl q hq
  · intro c hc
    obtain ⟨k, pl, hkpl, hcpl, hclose⟩ := buildCycleList_mem hc
    obtain ⟨hhead, hlen, hch, hnd⟩ := buildPathMatrixF_spec hpm k pl hkpl c hcpl
    refine ⟨hclose, hlen, hch, ?_⟩
    rcases hnd with hn | hn
    · exact List.Nodup.sublist (List.dropLast_sublist c) hn
    · exact hn.1

theorem C10_recorded_paths_genuine_witness :
    GoodPath [(0, 1), (1, 0)] 0 [0, 1, 0] :=
  (C10_recorded_paths_genuine (mkModel [0, 1] [(0, 1), (1, 0)])).1 0 [[0, 1], [0, 1, 0]]
    (by simp [cleanUpFeedbackLinks, buildPathMatrixF, makePredecessorListsF, pathMatrixEntryLoop,
      sproutPathsFromF, sproutLoop, setPredecessorsF, setPredecessorsLoop, outputsOf, inputsOf,
      pushPred, unionPreds, buildCycleList, cycleStep, cycleKnown, intersection, mkModel])
    [0, 1, 0] (by simp)

end Clast
